import Mathlib

/-
Verification of the pretf rendering engine (render.py, collections.py)
against its natural-language specification.

Python strings are embedded as lists of characters (`Str`), Python's
dynamically typed values as the inductive `PyVal`, generators as `Gen`
(a suspended coroutine mapping the sent-in value to either termination,
modelling StopIteration, or a yielded value plus the next suspension),
and fallible Python code as `Option`-returning functions.
-/

namespace Pretf

/-- Python strings, embedded as lists of characters. -/
abbrev Str := List Char

/-- Python str.split(".") for a one-character separator:
splits on every dot, keeping empty segments, and returns [""] for "". -/
def splitDot : Str → List Str
  | [] => [[]]
  | c :: rest =>
    if c = '.' then [] :: splitDot rest
    else
      match splitDot rest with
      | [] => [[c]]
      | g :: gs => (c :: g) :: gs

/-- Python ".".join(parts). -/
def joinDot : List Str → Str
  | [] => []
  | [s] => s
  | s :: rest => s ++ '.' :: joinDot rest

/-- Embedding of the Python values the rendering engine manipulates:
strings, Interpolated objects, dicts (insertion-ordered association
lists), lists, Block objects, Collection objects and None. -/
inductive PyVal where
  | str : Str → PyVal
  | interp : Str → PyVal
  | obj : List (Str × PyVal) → PyVal
  | arr : List PyVal → PyVal
  | blk : Str → List (Str × PyVal) → PyVal
  | coll : List PyVal → List (Str × PyVal) → PyVal
  | pynone : PyVal

/-- Python dict lookup d[k] / d.get(k) on an insertion-ordered
association list whose keys are unique. -/
def pyLookup (d : List (Str × PyVal)) (k : Str) : Option PyVal :=
  match d with
  | [] => none
  | (k', v) :: rest => if k' = k then some v else pyLookup rest k

/-- Python dict assignment d[k] = v: replaces the value in place if the
key exists (keeping its position), otherwise appends the new pair. -/
def pyInsert (d : List (Str × PyVal)) (k : Str) (v : PyVal) : List (Str × PyVal) :=
  match d with
  | [] => [(k, v)]
  | (k', v') :: rest => if k' = k then (k', v) :: rest else (k', v') :: pyInsert rest k v

/-- Python truthiness of an embedded value (bool(x)): empty strings,
dicts and lists and None are falsy; Interpolated, Block and Collection
objects define neither a length nor a boolean conversion and are truthy. -/
def pyTruthy : PyVal → Bool
  | .str s => !s.isEmpty
  | .interp _ => true
  | .obj d => !d.isEmpty
  | .arr l => !l.isEmpty
  | .blk _ _ => true
  | .coll _ _ => true
  | .pynone => false

/-- Interpolated.__str__: wraps the dotted path in the interpolation
syntax, "$\x7b" ++ value ++ "\x7d". -/
def interpText (v : Str) : Str :=
  ("$\x7b").toList ++ v ++ ("\x7d").toList

/-- Interpolated.__eq__: compares str(self) with the other value. -/
def interpEqStr (v : Str) (other : Str) : Bool :=
  interpText v = other

/-- Interpolated.__getattr__: appends a new dotted segment, returning a
new Interpolated and never mutating the receiver. -/
def interpGetattr (v : Str) (attr : Str) : Str :=
  v ++ '.' :: attr

/-- Python str(x), where the embedding needs it (the f-string in the
provider branch of Block.__getattr__): defined for strings, Interpolated
values (their interpolation-wrapped form), Block objects (their path)
and None; the repr fallback for containers is left unmodelled. -/
def pyStrOf : PyVal → Option Str
  | .str s => some s
  | .interp v => some (interpText v)
  | .blk p _ => some p
  | .pynone => some ("None").toList
  | _ => none

namespace Block

/-- Block.__iter__ builds the nested dict by walking the dotted path:
each segment opens a fresh one-key dict and the body is placed at the
innermost level. -/
def buildNested : List Str → List (Str × PyVal) → List (Str × PyVal)
  | [], body => body
  | p :: rest, body => [(p, PyVal.obj (buildNested rest body))]

/-- Block.__iter__: for a dotted path the result is the nested dict with
the body at the bottom; for a single-segment path the result maps the
path directly to the body. Yields the (single) top-level pair. -/
def iter (path : Str) (body : List (Str × PyVal)) : List (Str × PyVal) :=
  if '.' ∈ path then buildNested (splitDot path) body
  else [(path, PyVal.obj body)]

/-- Result of Block.__getattr__: either a plain Python string (the
provider branch) or an Interpolated object carrying a dotted path. -/
inductive AttrResult where
  | pystr : Str → AttrResult
  | interpolated : Str → AttrResult
deriving DecidableEq

/-- Canonical textual form (str(x)) of an attribute-access result. -/
def attrText : AttrResult → Str
  | .pystr s => s
  | .interpolated v => interpText v

/-- Block.__getattr__: splits the path, drops a leading "resource"
segment, rewrites a leading "variable" segment to "var", and for a
leading "provider" segment returns the plain string type or type.alias
without appending the attribute; otherwise appends the attribute name
and wraps the joined path in an Interpolated. Returns none where the
Python raises (a bare "provider" path indexing parts[1]) or where the
embedding leaves str() undefined. -/
def getattr (path : Str) (body : List (Str × PyVal)) (name : Str) : Option AttrResult :=
  match splitDot path with
  | [] => none
  | p0 :: rest =>
    if p0 = ("resource").toList then
      some (.interpolated (joinDot (rest ++ [name])))
    else if p0 = ("variable").toList then
      some (.interpolated (joinDot (("var").toList :: rest ++ [name])))
    else if p0 = ("provider").toList then
      match rest with
      | [] => none
      | p1 :: _ =>
        match pyLookup body (("alias").toList) with
        | some a =>
          if pyTruthy a then
            match pyStrOf a with
            | some s => some (.pystr (p1 ++ '.' :: s))
            | none => none
          else
            some (.pystr p1)
        | none => some (.pystr p1)
    else
      some (.interpolated (joinDot (p0 :: rest ++ [name])))

end Block

mutual

/-- Collection.__iter__, per stored item: a nested Collection is
recursively flattened, any other item is yielded as-is. -/
def collectionIterItem : PyVal → List PyVal
  | .coll bs _ => collectionIterList bs
  | v => [v]

/-- Collection.__iter__ over the stored block list. -/
def collectionIterList : List PyVal → List PyVal
  | [] => []
  | b :: rest => collectionIterItem b ++ collectionIterList rest

end

/-- unwrap_yielded: a Block becomes its single flattened mapping, a dict
is passed through, anything else is iterated with its items yielded
directly (yield from). Iterating a Collection flattens it recursively;
iterating a string yields its one-character strings; non-iterable
values raise TypeError, modelled as none. -/
def unwrap_yielded : PyVal → Option (List PyVal)
  | .blk path body => some [PyVal.obj (Block.iter path body)]
  | .obj d => some [PyVal.obj d]
  | .arr items => some items
  | .coll bs _ => some (collectionIterList bs)
  | .str s => some (s.map fun c => PyVal.str [c])
  | .interp _ => none
  | .pynone => none

/-- A suspended Python generator: sending a value either raises
StopIteration (none) or produces the yielded value and the next
suspended state. -/
inductive Gen where
  | gen : (PyVal → Option (PyVal × Gen)) → Gen

/-- gen.send(v). -/
def Gen.send : Gen → PyVal → Option (PyVal × Gen)
  | .gen k, v => k v

/-- A generator that yields a fixed list of values, ignoring what is
sent in, then stops. -/
def genOfList : List PyVal → Gen
  | [] => .gen fun _ => none
  | y :: rest => .gen fun _ => some (y, genOfList rest)

mutual

/-- Structural equality of embedded Python values, used by the
modelled variable store's change check. -/
def pyBeq : PyVal → PyVal → Bool
  | .str a, .str b => a = b
  | .interp a, .interp b => a = b
  | .obj a, .obj b => pyBeqFields a b
  | .arr a, .arr b => pyBeqList a b
  | .blk p a, .blk q b => p = q && pyBeqFields a b
  | .coll a x, .coll b y => pyBeqList a b && pyBeqFields x y
  | .pynone, .pynone => true
  | _, _ => false

/-- Structural equality of lists of embedded values. -/
def pyBeqList : List PyVal → List PyVal → Bool
  | [], [] => true
  | a :: arest, b :: brest => pyBeq a b && pyBeqList arest brest
  | _, _ => false

/-- Structural equality of dicts of embedded values. -/
def pyBeqFields : List (Str × PyVal) → List (Str × PyVal) → Bool
  | [], [] => true
  | (k, v) :: arest, (k2, v2) :: brest => k = k2 && pyBeq v v2 && pyBeqFields arest brest
  | _, _ => false

end

/-- Modelled from the spec: variables.get_variables_from_block, which is
not under src/. Per §4.2(e), a block whose top-level key is "variable"
yields one variable definition per entry, each carrying its name and
an optional default value taken from the entry body. Any other block
yields nothing. -/
def get_variables_from_block : PyVal → List (Str × Option PyVal)
  | .obj d =>
    match pyLookup d (("variable").toList) with
    | some (.obj entries) =>
      entries.map fun e =>
        (e.1, match e.2 with | .obj b => pyLookup b (("default").toList) | _ => none)
    | _ => []
  | _ => []

/-- Modelled from the spec: parser.get_outputs_from_block, which is not
under src/. Per §4.2(e), a block whose top-level key is "output" yields
one (name, value) pair per entry, the value taken from the entry body's
"value" field. Any other block yields nothing. -/
def get_outputs_from_block : PyVal → List (Str × PyVal)
  | .obj d =>
    match pyLookup d (("output").toList) with
    | some (.obj entries) =>
      entries.map fun e =>
        (e.1, match e.2 with
              | .obj b => (pyLookup b (("value").toList)).getD PyVal.pynone
              | v => v)
    | _ => []
  | _ => []

/-- Modelled from the spec: the plain VariableStore used by collect
(§4.2(a)), which is not under src/. It tracks name-to-value entries. -/
structure VariableStore where
  values : List (Str × PyVal)

/-- Modelled from the spec: VariableStore.add for a variable definition
yielded by a variable block; a default value populates the store,
a bare definition records nothing usable (§4.2(e)). -/
def VariableStore.addDef (s : VariableStore) (v : Str × Option PyVal) : VariableStore :=
  match v.2 with
  | some d => { values := pyInsert s.values v.1 d }
  | none => s

/-- State of the collect driver loop: the collection's variable store,
ordinary blocks and outputs, plus ghost traces of every value sent into
the producer and every value it yielded. -/
structure CollectAcc where
  store : VariableStore
  blocks : List PyVal
  outputs : List (Str × PyVal)
  sentTrace : List PyVal
  yieldTrace : List PyVal

/-- The body of collect's per-block classification: variable blocks
feed the store, output blocks feed the output mapping, and a block that
produced neither is appended to the ordinary-block list. -/
def processBlock (acc : CollectAcc) (block : PyVal) : CollectAcc :=
  let vars := get_variables_from_block block
  let outs := get_outputs_from_block block
  let store := vars.foldl VariableStore.addDef acc.store
  let outputs := outs.foldl (fun o nv => pyInsert o nv.1 nv.2) acc.outputs
  if vars.isEmpty && outs.isEmpty then
    { acc with store := store, outputs := outputs, blocks := acc.blocks ++ [block] }
  else
    { acc with store := store, outputs := outputs }

/-- collect's drain loop: send the previously yielded value back into
the producer (None at the first advance), stop on StopIteration, and
otherwise unwrap the yielded value and classify each unwrapped block.
Fuel bounds the loop; running out is modelled as none. -/
def collectDrain : Nat → Gen → PyVal → CollectAcc → Option CollectAcc
  | 0, _, _, _ => none
  | fuel + 1, g, prev, acc =>
    let acc1 := { acc with sentTrace := acc.sentTrace ++ [prev] }
    match g.send prev with
    | none => some acc1
    | some (y, g') =>
      match unwrap_yielded y with
      | none => none
      | some blocks =>
        collectDrain fuel g' y
          (blocks.foldl processBlock { acc1 with yieldTrace := acc1.yieldTrace ++ [y] })

/-- The accumulator collect starts from: a store seeded from the
keyword arguments, and everything else empty. -/
def initCollectAcc (kwargs : List (Str × PyVal)) : CollectAcc :=
  { store := { values := kwargs.foldl (fun s kv => pyInsert s kv.1 kv.2) [] }
    blocks := []
    outputs := []
    sentTrace := []
    yieldTrace := [] }

/-- collect(func)(**kwargs): seed a fresh store from the keyword
arguments, drive the producer to completion starting by sending None,
and package the ordinary blocks and outputs into a Collection. -/
def collect (producer : Gen) (kwargs : List (Str × PyVal)) (fuel : Nat) : Option PyVal :=
  match collectDrain fuel producer PyVal.pynone (initCollectAcc kwargs) with
  | some acc => some (PyVal.coll acc.blocks acc.outputs)
  | none => none

namespace Collection

/-- Collection.__getattr__: a recorded output is returned by name, any
other attribute raises AttributeError("output not defined: ..."). -/
def getattr (outputs : List (Str × PyVal)) (name : Str) : Except Str PyVal :=
  match pyLookup outputs name with
  | some v => .ok v
  | none => .error (("output not defined: ").toList ++ name)

end Collection

/-- Modelled from the spec: the TerraformVariableStore contract (§4.5),
which is not under src/. Definitions and values are tracked separately
(registering a definition does not make a value available), the store
knows which tfvars files it is waiting for, and is told when a file has
been created. -/
structure TerraformVariableStore where
  definitions : List Str
  values : List (Str × PyVal)
  waitingFiles : List Str
  createdFiles : List Str

namespace TerraformVariableStore

/-- Modelled from the spec: add for a variable definition registers the
definition without making a value available (§4.3). -/
def addDef (s : TerraformVariableStore) (v : Str × Option PyVal) : TerraformVariableStore :=
  { s with definitions := s.definitions ++ [v.1] }

/-- Modelled from the spec: add for a VariableValue with
allow_change=False fails loudly (none) when a different value for the
same name already exists, and accepts an identical re-registration
(§4.5, property 7). -/
def addValueNoChange (s : TerraformVariableStore) (name : Str) (value : PyVal) :
    Option TerraformVariableStore :=
  match pyLookup s.values name with
  | some old => if pyBeq old value then some s else none
  | none => some { s with values := pyInsert s.values name value }

/-- Modelled from the spec: tfvars_waiting_for — whether the store is
currently waiting on the named value file (§4.5). -/
def tfvars_waiting_for (s : TerraformVariableStore) (fileName : Str) : Bool :=
  s.waitingFiles.contains fileName

/-- Modelled from the spec: file_created — record that the named file
now exists, releasing any waits pinned on it (§4.5). -/
def file_created (s : TerraformVariableStore) (fileName : Str) : TerraformVariableStore :=
  { s with
    createdFiles := s.createdFiles ++ [fileName]
    waitingFiles := s.waitingFiles.filter (· ≠ fileName) }

/-- Modelled from the spec: membership test used by the scheduling
loop's until check — a name is in the store when a value for it is
available. -/
def containsVar (s : TerraformVariableStore) (name : Str) : Bool :=
  (pyLookup s.values name).isSome

end TerraformVariableStore

/-- The ".tfvars.json" suffix that marks a variable-value file. -/
def tfvarsSuffix : Str := (".tfvars.json").toList

/-- One render job: the source file name, the suspended producer, the
target file name, the value to send back at the next advance, and the
blocks collected so far. The done flag is set at construction and,
as in the source, never updated by run. -/
structure RenderJob where
  pathName : Str
  gen : Gen
  output_name : Str
  return_value : PyVal
  blocks : List PyVal
  done : Bool

namespace RenderJob

/-- RenderJob.__init__: the producer starts unadvanced, the value to
send first is None, and no blocks have been collected. -/
def mk' (pathName : Str) (g : Gen) (output_name : Str) : RenderJob :=
  { pathName := pathName
    gen := g
    output_name := output_name
    return_value := PyVal.pynone
    blocks := []
    done := false }

/-- process_tf_block: register every variable definition found in the
block with the shared store. -/
def process_tf_block (s : TerraformVariableStore) (block : PyVal) : TerraformVariableStore :=
  (get_variables_from_block block).foldl TerraformVariableStore.addDef s

/-- process_tfvars_block: only when the store is waiting on this job's
output file, feed every name-value pair of the block into the store
with allow_change=False; a conflicting value raises, modelled as none.
A non-dict block has no items() and raises. -/
def process_tfvars_block (j : RenderJob) (s : TerraformVariableStore) (block : PyVal) :
    Option TerraformVariableStore :=
  if s.tfvars_waiting_for j.output_name then
    match block with
    | .obj fields => fields.foldlM (fun st kv => st.addValueNoChange kv.1 kv.2) s
    | _ => none
  else
    some s

/-- The per-block step of run: classify the block according to the
target file's role. -/
def processOne (j : RenderJob) (s : TerraformVariableStore) (block : PyVal) :
    Option TerraformVariableStore :=
  if tfvarsSuffix.isSuffixOf j.output_name then j.process_tfvars_block s block
  else some (process_tf_block s block)

/-- RenderJob.run: advance the producer exactly one step, sending the
previous step's value back in. On StopIteration, notify the store that
the output file now exists and report done. Otherwise record the
yielded value for the next send, classify each unwrapped block and
append all of them to the block list, reporting not done. An exception
from unwrapping or classification propagates, modelled as none. -/
def run (j : RenderJob) (s : TerraformVariableStore) :
    Option (RenderJob × TerraformVariableStore × Bool) :=
  match j.gen.send j.return_value with
  | none => some (j, s.file_created j.output_name, true)
  | some (yielded, g') =>
    match unwrap_yielded yielded with
    | none => none
    | some ublocks =>
      match ublocks.foldlM (fun st b => j.processOne st b) s with
      | none => none
      | some s' =>
        some ({ j with gen := g', return_value := yielded, blocks := j.blocks ++ ublocks },
              s', false)

/-- Whether every collected block is a dict, and if so their field
lists; a non-dict block makes contents() of a tfvars file raise. -/
def allFields : List PyVal → Option (List (List (Str × PyVal)))
  | [] => some []
  | .obj fs :: rest => (allFields rest).map (fs :: ·)
  | _ => none

/-- Merging one block's fields into the accumulated flat mapping, in
order, later entries overriding earlier keys. -/
def insertAllFields (m : List (Str × PyVal)) (fs : List (Str × PyVal)) :
    List (Str × PyVal) :=
  fs.foldl (fun acc kv => pyInsert acc kv.1 kv.2) m

/-- RenderJob.contents: a variable-value file merges all collected
blocks into one flat mapping, later blocks overriding earlier keys;
any other file's contents is the collected block list as-is. -/
def contents (j : RenderJob) : Option PyVal :=
  if tfvarsSuffix.isSuffixOf j.output_name then
    match allFields j.blocks with
    | some fss => some (PyVal.obj (fss.foldl insertAllFields []))
    | none => none
  else
    some (PyVal.arr j.blocks)

end RenderJob

/-- The Renderer's mutable state: the pending job stack (top is the
list's last element, matching list.append and list.pop), the completed
jobs in completion order, and the shared variable store. -/
structure RendererState where
  jobs : List RenderJob
  doneJobs : List RenderJob
  varStore : TerraformVariableStore

/-- The truthy until check at the top of the scheduling loop:
"if until and until in self.variables". -/
def untilBreak (u : Option Str) (s : TerraformVariableStore) : Bool :=
  match u with
  | some n => !n.isEmpty && s.containsVar n
  | none => false

/-- Renderer.process_jobs: while jobs remain, stop early when the until
variable is available, otherwise pop the most recently pushed job,
advance it one step, and move it to the completed list or push it back.
Fuel bounds the loop; running out (or a job raising) is none. -/
def process_jobs : Nat → Option Str → RendererState → Option RendererState
  | 0, _, _ => none
  | fuel + 1, u, st =>
    match st.jobs.getLast? with
    | none => some st
    | some job =>
      if untilBreak u st.varStore then some st
      else
        match job.run st.varStore with
        | none => none
        | some (job', vars', isDone) =>
          if isDone then
            process_jobs fuel u
              { jobs := st.jobs.dropLast, doneJobs := st.doneJobs ++ [job'], varStore := vars' }
          else
            process_jobs fuel u
              { jobs := st.jobs.dropLast ++ [job'], doneJobs := st.doneJobs, varStore := vars' }

/-- Renderer.render: run the scheduling loop with no until bound, then
assemble the mapping from output file name to materialized contents. -/
def render (fuel : Nat) (st : RendererState) : Option (List (Str × PyVal)) :=
  match process_jobs fuel none st with
  | some st' =>
    st'.doneJobs.foldlM
      (fun acc job => (job.contents).map fun c => pyInsert acc job.output_name c) []
  | none => none

/-- Whether a value is a plain mapping (a Python dict). -/
def isMapping : PyVal → Bool
  | .obj _ => true
  | _ => false

/-- Whether a value is a Collection object. -/
def isCollVal : PyVal → Bool
  | .coll _ _ => true
  | _ => false

/-- An ordinary block: not a Collection object, and classified neither
as a variable block nor as an output block. -/
def ordinaryBlock (v : PyVal) : Bool :=
  !isCollVal v && (get_variables_from_block v).isEmpty && (get_outputs_from_block v).isEmpty

theorem splitDot_ne_nil (s : Str) : splitDot s ≠ [] := by
  cases s with
  | nil => simp [splitDot]
  | cons c rest =>
    simp only [splitDot]
    split
    · simp
    · split <;> simp

theorem splitDot_of_not_mem (s : Str) (h : ('.' : Char) ∉ s) : splitDot s = [s] := by
  induction s with
  | nil => rfl
  | cons c rest ih =>
    have hc : c ≠ '.' := by
      rintro rfl
      exact h (List.mem_cons_self _ _)
    have hrest : ('.' : Char) ∉ rest := fun hm => h (List.mem_cons_of_mem _ hm)
    simp only [splitDot, if_neg hc, ih hrest]

theorem splitDot_append (s t : Str) (h : ('.' : Char) ∉ s) :
    splitDot (s ++ '.' :: t) = s :: splitDot t := by
  induction s with
  | nil => simp [splitDot]
  | cons c rest ih =>
    have hc : c ≠ '.' := by
      rintro rfl
      exact h (List.mem_cons_self _ _)
    have hrest : ('.' : Char) ∉ rest := fun hm => h (List.mem_cons_of_mem _ hm)
    simp only [List.cons_append, List.append_eq, splitDot, if_neg hc, ih hrest]

theorem splitDot_joinDot (segs : List Str) (h1 : segs ≠ [])
    (h2 : ∀ x ∈ segs, ('.' : Char) ∉ x) : splitDot (joinDot segs) = segs := by
  induction segs with
  | nil => exact absurd rfl h1
  | cons a rest ih =>
    cases rest with
    | nil => simpa [joinDot] using splitDot_of_not_mem a (h2 a (by simp))
    | cons b rest' =>
      have hj : joinDot (a :: b :: rest') = a ++ '.' :: joinDot (b :: rest') := rfl
      rw [hj, splitDot_append a _ (h2 a (by simp)),
        ih (by simp) (fun x hx => h2 x (by simp [hx]))]

theorem dot_mem_joinDot (a b : Str) (rest : List Str) :
    ('.' : Char) ∈ joinDot (a :: b :: rest) :=
  List.mem_append_right a (List.mem_cons_self '.' (joinDot (b :: rest)))

/-- C3. For every dotted path built from nonempty dot-free segments
s1...sn, flattening a Block with that path and body b yields the
mapping nested exactly n levels deep with b at the bottom under the
literal segment names (the shape buildNested computes); for a
single-segment path flattening yields one pair mapping the segment
directly to the body, with no extra nesting. Flattening is a total
pure function. -/
theorem block_flattening (segs : List Str) (body : List (Str × PyVal))
    (h1 : segs ≠ []) (h2 : ∀ x ∈ segs, ('.' : Char) ∉ x) :
    Block.iter (joinDot segs) body = Block.buildNested segs body ∧
    (∀ s, ('.' : Char) ∉ s → Block.iter s body = [(s, PyVal.obj body)]) := by
  constructor
  · cases segs with
    | nil => exact absurd rfl h1
    | cons a rest =>
      cases rest with
      | nil =>
        have ha : ('.' : Char) ∉ a := h2 a (by simp)
        have hj : joinDot [a] = a := rfl
        rw [hj]
        simp [Block.iter, if_neg ha, Block.buildNested]
      | cons b rest' =>
        have hdot := dot_mem_joinDot a b rest'
        rw [Block.iter, if_pos hdot, splitDot_joinDot _ h1 h2]
  · intro s hs
    simp [Block.iter, if_neg hs]

/-- Witness for block_flattening at segs = [a, b, c] and an empty body:
flattening Block("a.b.c", \x7b\x7d) yields \x7ba: \x7bb: \x7bc: \x7b\x7d\x7d\x7d\x7d. -/
theorem block_flattening_witness :
    ([("a").toList, ("b").toList, ("c").toList] : List Str) ≠ [] ∧
    (∀ x ∈ [("a").toList, ("b").toList, ("c").toList], ('.' : Char) ∉ x) ∧
    Block.iter (joinDot [("a").toList, ("b").toList, ("c").toList]) []
      = Block.buildNested [("a").toList, ("b").toList, ("c").toList] [] :=
  ⟨by decide, by decide,
   (block_flattening [("a").toList, ("b").toList, ("c").toList] []
      (by decide) (by decide)).1⟩

/-- The value the last occurrence of a key in one block's field list
carries: the first hit when searching the fields from the right. -/
def lastAssoc (fs : List (Str × PyVal)) (k : Str) : Option PyVal :=
  pyLookup fs.reverse k

/-- The value for a key after merging a sequence of blocks in order
with later blocks overriding earlier ones: the first hit when
searching the blocks from the last to the first. -/
def lastDefined : List (List (Str × PyVal)) → Str → Option PyVal
  | [], _ => none
  | fs :: rest, k =>
    match lastDefined rest k with
    | some v => some v
    | none => lastAssoc fs k

theorem pyLookup_pyInsert (m : List (Str × PyVal)) (a k : Str) (v : PyVal) :
    pyLookup (pyInsert m a v) k = if a = k then some v else pyLookup m k := by
  induction m with
  | nil => simp [pyInsert, pyLookup]
  | cons kv rest ih =>
    obtain ⟨k', v'⟩ := kv
    simp only [pyInsert]
    by_cases h1 : k' = a
    · subst h1
      by_cases h2 : k' = k <;> simp_all [pyLookup]
    · by_cases h2 : k' = k <;> by_cases h3 : a = k <;> simp_all [pyLookup]

theorem pyLookup_append (l1 l2 : List (Str × PyVal)) (k : Str) :
    pyLookup (l1 ++ l2) k =
      match pyLookup l1 k with
      | some v => some v
      | none => pyLookup l2 k := by
  induction l1 with
  | nil => simp [pyLookup]
  | cons kv rest ih =>
    obtain ⟨k', v'⟩ := kv
    by_cases h : k' = k <;> simp [pyLookup, h, ih]

theorem pyLookup_insertAllFields (fs : List (Str × PyVal)) (m : List (Str × PyVal))
    (k : Str) :
    pyLookup (RenderJob.insertAllFields m fs) k =
      match lastAssoc fs k with
      | some v => some v
      | none => pyLookup m k := by
  induction fs generalizing m with
  | nil => simp [RenderJob.insertAllFields, lastAssoc, pyLookup]
  | cons kv rest ih =>
    obtain ⟨a, v⟩ := kv
    have hfold : RenderJob.insertAllFields m ((a, v) :: rest)
        = RenderJob.insertAllFields (pyInsert m a v) rest := rfl
    rw [hfold, ih]
    cases hcase : lastAssoc rest k with
    | some w =>
      simp [lastAssoc, pyLookup_append] at hcase ⊢
      simp [hcase]
    | none =>
      simp [lastAssoc, pyLookup_append] at hcase ⊢
      simp [hcase, pyLookup_pyInsert, pyLookup]
      by_cases h3 : a = k <;> simp [h3]

theorem pyLookup_foldl_insertAllFields (fss : List (List (Str × PyVal)))
    (m : List (Str × PyVal)) (k : Str) :
    pyLookup (fss.foldl RenderJob.insertAllFields m) k =
      match lastDefined fss k with
      | some v => some v
      | none => pyLookup m k := by
  induction fss generalizing m with
  | nil => simp [lastDefined]
  | cons fs rest ih =>
    have hfold : (fs :: rest).foldl RenderJob.insertAllFields m
        = rest.foldl RenderJob.insertAllFields (RenderJob.insertAllFields m fs) := rfl
    rw [hfold, ih, pyLookup_insertAllFields]
    simp only [lastDefined]
    cases lastDefined rest k <;> cases lastAssoc fs k <;> simp

/-- C7. contents of a completed job whose output name carries the
tfvars suffix is the single flat mapping obtained by merging all
collected block mappings in order, where a key's merged value is the
one from the last block defining it (later blocks override earlier
keys); contents of any other file is the ordered list of all collected
blocks exactly as recorded. -/
theorem renderjob_contents_assembly (j : RenderJob) (fss : List (List (Str × PyVal))) :
    (tfvarsSuffix.isSuffixOf j.output_name = true →
      RenderJob.allFields j.blocks = some fss →
      j.contents = some (PyVal.obj (fss.foldl RenderJob.insertAllFields [])) ∧
      ∀ k, pyLookup (fss.foldl RenderJob.insertAllFields []) k = lastDefined fss k) ∧
    (tfvarsSuffix.isSuffixOf j.output_name = false →
      j.contents = some (PyVal.arr j.blocks)) := by
  constructor
  · intro hsuffix hall
    constructor
    · simp [RenderJob.contents, hsuffix, hall]
    · intro k
      rw [pyLookup_foldl_insertAllFields]
      cases lastDefined fss k <;> simp [pyLookup]
  · intro hsuffix
    simp [RenderJob.contents, hsuffix]

/-- A concrete completed tfvars job with two blocks whose keys overlap,
used to witness the contents theorem. -/
def wContentsBlocks : List PyVal :=
  [PyVal.obj [(("a").toList, PyVal.str ("1").toList)],
   PyVal.obj [(("a").toList, PyVal.str ("2").toList),
              (("b").toList, PyVal.str ("3").toList)]]

/-- The field lists of wContentsBlocks. -/
def wContentsFields : List (List (Str × PyVal)) :=
  [[(("a").toList, PyVal.str ("1").toList)],
   [(("a").toList, PyVal.str ("2").toList),
    (("b").toList, PyVal.str ("3").toList)]]

/-- The concrete tfvars job for the contents witness. -/
def wJobTfvars : RenderJob :=
  { pathName := ("x.tfvars").toList
    gen := genOfList []
    output_name := ("x.tfvars.json").toList
    return_value := PyVal.pynone
    blocks := wContentsBlocks
    done := false }

/-- The concrete non-tfvars job for the contents witness. -/
def wJobMain : RenderJob :=
  { pathName := ("main.tf").toList
    gen := genOfList []
    output_name := ("main.tf.json").toList
    return_value := PyVal.pynone
    blocks := []
    done := false }

/-- Witness for renderjob_contents_assembly: a tfvars job with two
blocks, the second overriding key a, merges to a flat mapping; a
non-tfvars job returns its block list unchanged. -/
theorem renderjob_contents_assembly_witness :
    (tfvarsSuffix.isSuffixOf wJobTfvars.output_name = true ∧
      RenderJob.allFields wJobTfvars.blocks = some wContentsFields ∧
      wJobTfvars.contents
        = some (PyVal.obj (wContentsFields.foldl RenderJob.insertAllFields []))) ∧
    (tfvarsSuffix.isSuffixOf wJobMain.output_name = false ∧
      wJobMain.contents = some (PyVal.arr wJobMain.blocks)) := by
  refine ⟨⟨by decide, rfl, ?_⟩, by decide, ?_⟩
  · exact ((renderjob_contents_assembly wJobTfvars wContentsFields).1 (by decide) rfl).1
  · exact (renderjob_contents_assembly wJobMain []).2 (by decide)

/-- C6. One call to RenderJob.run advances the producer exactly one
step, sending the previous step's value back in: if the producer has
terminated, run notifies the store that the output file now exists
(file_created with the output name) and returns done; otherwise it
classifies each newly yielded unwrapped block, appends every one of
them to the job's block list in emission order, records the yielded
value for the next send, and returns not done. -/
theorem renderjob_run_single_step (j : RenderJob) (s : TerraformVariableStore) :
    (j.gen.send j.return_value = none →
      j.run s = some (j, s.file_created j.output_name, true)) ∧
    (∀ y g' ublocks s',
      j.gen.send j.return_value = some (y, g') →
      unwrap_yielded y = some ublocks →
      ublocks.foldlM (fun st b => j.processOne st b) s = some s' →
      j.run s
        = some ({ j with gen := g', return_value := y, blocks := j.blocks ++ ublocks },
                s', false)) := by
  constructor
  · intro h
    simp [RenderJob.run, h]
  · intro y g' ublocks s' h1 h2 h3
    simp [RenderJob.run, h1, h2, h3]

/-- The resource block used by the run-step witness. -/
def wRunBlock : PyVal := PyVal.obj [(("resource").toList, PyVal.obj [])]

/-- A job whose producer has already finished, for the run-step
witness. -/
def wJobDone : RenderJob :=
  RenderJob.mk' ("done.tf").toList (genOfList []) ("done.tf.json").toList

/-- A job whose producer yields one resource block, for the run-step
witness. -/
def wJobYield : RenderJob :=
  RenderJob.mk' ("main.tf").toList (genOfList [wRunBlock]) ("main.tf.json").toList

/-- The empty variable store used by witnesses. -/
def wStore : TerraformVariableStore :=
  { definitions := [], values := [], waitingFiles := [], createdFiles := [] }

/-- Witness for renderjob_run_single_step: a finished producer reports
done and records file_created; a producer yielding one block gets that
block appended and reports not done. -/
theorem renderjob_run_single_step_witness :
    (wJobDone.gen.send wJobDone.return_value = none ∧
      wJobDone.run wStore = some (wJobDone, wStore.file_created wJobDone.output_name, true)) ∧
    (wJobYield.gen.send wJobYield.return_value = some (wRunBlock, genOfList []) ∧
      unwrap_yielded wRunBlock = some [wRunBlock] ∧
      [wRunBlock].foldlM (fun st b => wJobYield.processOne st b) wStore = some wStore ∧
      wJobYield.run wStore
        = some ({ wJobYield with
                    gen := genOfList []
                    return_value := wRunBlock
                    blocks := wJobYield.blocks ++ [wRunBlock] },
                wStore, false)) :=
  ⟨⟨rfl, (renderjob_run_single_step wJobDone wStore).1 rfl⟩,
   ⟨rfl, rfl, rfl,
    (renderjob_run_single_step wJobYield wStore).2 wRunBlock (genOfList [])
      [wRunBlock] wStore rfl rfl rfl⟩⟩

/-- C8. Whenever Renderer.process_jobs returns: with no until bound the
pending job stack has been emptied (the loop terminates only when the
stack is empty); with an until name, either the stack is empty or that
variable has become available in the store; and when the until variable
is already available while jobs remain pending, the loop returns
immediately without running the remaining jobs. -/
theorem process_jobs_return_condition :
    (∀ fuel st st', process_jobs fuel none st = some st' → st'.jobs = []) ∧
    (∀ fuel n st st', process_jobs fuel (some n) st = some st' →
      st'.jobs = [] ∨ st'.varStore.containsVar n = true) ∧
    (∀ fuel n st, st.jobs ≠ [] → n.isEmpty = false →
      st.varStore.containsVar n = true →
      process_jobs (fuel + 1) (some n) st = some st) := by
  refine ⟨?_, ?_, ?_⟩
  · intro fuel
    induction fuel with
    | zero => intro st st' h; exact absurd h (by simp [process_jobs])
    | succ fuel ih =>
      intro st st' h
      rw [process_jobs] at h
      cases hlast : st.jobs.getLast? with
      | none =>
        rw [hlast] at h
        cases h
        exact List.getLast?_eq_none_iff.mp hlast
      | some job =>
        rw [hlast] at h
        simp only [untilBreak, Bool.false_eq_true, if_false] at h
        cases hrun : job.run st.varStore with
        | none => rw [hrun] at h; cases h
        | some res =>
          obtain ⟨job', vars', isDone⟩ := res
          rw [hrun] at h
          by_cases hdone : isDone = true
          · rw [hdone] at h
            simp only [if_true] at h
            exact ih _ _ h
          · rw [Bool.not_eq_true] at hdone
            rw [hdone] at h
            simp only [Bool.false_eq_true, if_false] at h
            exact ih _ _ h
  · intro fuel
    induction fuel with
    | zero => intro n st st' h; exact absurd h (by simp [process_jobs])
    | succ fuel ih =>
      intro n st st' h
      rw [process_jobs] at h
      cases hlast : st.jobs.getLast? with
      | none =>
        rw [hlast] at h
        cases h
        exact Or.inl (List.getLast?_eq_none_iff.mp hlast)
      | some job =>
        rw [hlast] at h
        cases hbreak : untilBreak (some n) st.varStore with
        | true =>
          rw [hbreak] at h
          simp only [if_true] at h
          cases h
          simp only [untilBreak, Bool.and_eq_true] at hbreak
          exact Or.inr hbreak.2
        | false =>
          rw [hbreak] at h
          simp only [Bool.false_eq_true, if_false] at h
          cases hrun : job.run st.varStore with
          | none => rw [hrun] at h; cases h
          | some res =>
            obtain ⟨job', vars', isDone⟩ := res
            rw [hrun] at h
            by_cases hdone : isDone = true
            · rw [hdone] at h
              simp only [if_true] at h
              exact ih _ _ _ h
            · rw [Bool.not_eq_true] at hdone
              rw [hdone] at h
              simp only [Bool.false_eq_true, if_false] at h
              exact ih _ _ _ h
  · intro fuel n st hjobs hn hvar
    rw [process_jobs]
    cases hlast : st.jobs.getLast? with
    | none => exact absurd (List.getLast?_eq_none_iff.mp hlast) hjobs
    | some job =>
      have hbreak : untilBreak (some n) st.varStore = true := by
        simp [untilBreak, hn, hvar]
      rw [hbreak]
      simp

/-- A pending-state for the process_jobs witness: one job whose
producer has finished, an empty done list, and a store in which
variable v is available. -/
def wSchedState : RendererState :=
  { jobs := [wJobDone]
    doneJobs := []
    varStore := { definitions := [], values := [(("v").toList, PyVal.str ("1").toList)],
                  waitingFiles := [], createdFiles := [] } }

/-- The state a full run of process_jobs reaches from wSchedState: the
single finished job has moved to the done list and its output file has
been recorded as created. -/
def wSchedResult : RendererState :=
  { jobs := []
    doneJobs := [wJobDone]
    varStore := wSchedState.varStore.file_created wJobDone.output_name }

/-- Witness for process_jobs_return_condition: a full run empties the
one-job stack; a run bounded by an available until variable returns at
once with the job still pending. -/
theorem process_jobs_return_condition_witness :
    (process_jobs 2 none wSchedState = some wSchedResult ∧ wSchedResult.jobs = []) ∧
    (wSchedState.jobs ≠ [] ∧ (("v").toList).isEmpty = false ∧
      wSchedState.varStore.containsVar (("v").toList) = true ∧
      process_jobs 2 (some (("v").toList)) wSchedState = some wSchedState) :=
  ⟨⟨rfl, process_jobs_return_condition.1 2 wSchedState wSchedResult rfl⟩,
   ⟨List.cons_ne_nil _ _, rfl, rfl,
    process_jobs_return_condition.2.2 1 (("v").toList) wSchedState
      (List.cons_ne_nil _ _) rfl rfl⟩⟩

theorem processBlock_traces (acc : CollectAcc) (b : PyVal) :
    (processBlock acc b).sentTrace = acc.sentTrace ∧
    (processBlock acc b).yieldTrace = acc.yieldTrace := by
  unfold processBlock
  dsimp only
  split <;> exact ⟨rfl, rfl⟩

theorem foldl_processBlock_traces (l : List PyVal) (acc : CollectAcc) :
    (l.foldl processBlock acc).sentTrace = acc.sentTrace ∧
    (l.foldl processBlock acc).yieldTrace = acc.yieldTrace := by
  induction l generalizing acc with
  | nil => exact ⟨rfl, rfl⟩
  | cons b rest ih =>
    have hb := processBlock_traces acc b
    have hr := ih (processBlock acc b)
    exact ⟨hr.1.trans hb.1, hr.2.trans hb.2⟩

theorem collectDrain_trace (fuel : Nat) :
    ∀ g prev acc acc', collectDrain fuel g prev acc = some acc' →
      ∃ t, acc'.yieldTrace = acc.yieldTrace ++ t ∧
        acc'.sentTrace = acc.sentTrace ++ prev :: t := by
  induction fuel with
  | zero => intro g prev acc acc' h; exact absurd h (by simp [collectDrain])
  | succ fuel ih =>
    intro g prev acc acc' h
    rw [collectDrain] at h
    dsimp only at h
    cases hsend : g.send prev with
    | none =>
      rw [hsend] at h
      cases h
      exact ⟨[], by simp, rfl⟩
    | some yg =>
      obtain ⟨y, g'⟩ := yg
      rw [hsend] at h
      dsimp only at h
      cases hun : unwrap_yielded y with
      | none => rw [hun] at h; cases h
      | some blocks =>
        rw [hun] at h
        obtain ⟨t', ht1, ht2⟩ := ih g' y _ acc' h
        have hfold := foldl_processBlock_traces blocks
          { acc with
              sentTrace := acc.sentTrace ++ [prev]
              yieldTrace := acc.yieldTrace ++ [y] }
        refine ⟨y :: t', ?_, ?_⟩
        · rw [ht1, hfold.2]
          simp
        · rw [ht2, hfold.1]
          simp

/-- C10. The value sent back into the producer at each resumption is
exactly the value the producer yielded at its previous suspension
point, and None is sent at the first advance: in the collect driver,
the trace of sent values is None followed by the yield trace; a fresh
RenderJob's first send is None; and a RenderJob.run step that reports
not done records precisely the value the producer just yielded (and
the producer's new suspension) for the next send. -/
theorem sent_value_identity :
    (∀ fuel g kwargs acc',
      collectDrain fuel g PyVal.pynone (initCollectAcc kwargs) = some acc' →
      acc'.sentTrace = PyVal.pynone :: acc'.yieldTrace) ∧
    (∀ pn g oname, (RenderJob.mk' pn g oname).return_value = PyVal.pynone) ∧
    (∀ (j : RenderJob) (s : TerraformVariableStore) (j' : RenderJob)
        (s' : TerraformVariableStore),
      j.run s = some (j', s', false) →
      j.gen.send j.return_value = some (j'.return_value, j'.gen)) := by
  refine ⟨?_, fun _ _ _ => rfl, ?_⟩
  · intro fuel g kwargs acc' h
    obtain ⟨t, ht1, ht2⟩ := collectDrain_trace fuel g PyVal.pynone (initCollectAcc kwargs) acc' h
    simp only [initCollectAcc, List.nil_append] at ht1 ht2
    rw [ht1, ht2]
  · intro j s j' s' h
    unfold RenderJob.run at h
    cases hsend : j.gen.send j.return_value with
    | none => rw [hsend] at h; simp at h
    | some yg =>
      obtain ⟨y, g'⟩ := yg
      rw [hsend] at h
      dsimp only at h
      cases hun : unwrap_yielded y with
      | none => rw [hun] at h; cases h
      | some ub =>
        rw [hun] at h
        dsimp only at h
        cases hfold : ub.foldlM (fun st b => j.processOne st b) s with
        | none => rw [hfold] at h; cases h
        | some s'' =>
          rw [hfold] at h
          simp only [Option.some.injEq, Prod.mk.injEq] at h
          obtain ⟨hj, -, -⟩ := h
          rw [← hj]

/-- The accumulator collectDrain produces for a producer that yields
one resource block and stops. -/
def wDrainResult : CollectAcc :=
  { store := { values := [] }
    blocks := [wRunBlock]
    outputs := []
    sentTrace := [PyVal.pynone, wRunBlock]
    yieldTrace := [wRunBlock] }

/-- Witness for sent_value_identity: draining a one-yield producer
sends None then the yielded block; a fresh job's first send is None;
and the run step of wJobYield records the yielded block for the next
send. -/
theorem sent_value_identity_witness :
    (collectDrain 2 (genOfList [wRunBlock]) PyVal.pynone (initCollectAcc []) = some wDrainResult ∧
      wDrainResult.sentTrace = PyVal.pynone :: wDrainResult.yieldTrace) ∧
    (RenderJob.mk' ("a.tf").toList (genOfList []) ("a.tf.json").toList).return_value
      = PyVal.pynone ∧
    (wJobYield.run wStore
        = some ({ wJobYield with
                    gen := genOfList []
                    return_value := wRunBlock
                    blocks := wJobYield.blocks ++ [wRunBlock] },
                wStore, false) ∧
      wJobYield.gen.send wJobYield.return_value
        = some (wRunBlock, genOfList [])) :=
  ⟨⟨rfl, sent_value_identity.1 2 (genOfList [wRunBlock]) [] wDrainResult rfl⟩,
   sent_value_identity.2.1 ("a.tf").toList (genOfList []) ("a.tf.json").toList,
   ⟨rfl, sent_value_identity.2.2 wJobYield wStore _ wStore rfl⟩⟩

theorem collectionIterItem_of_not_coll (v : PyVal) (h : isCollVal v = false) :
    collectionIterItem v = [v] := by
  cases v <;> simp_all [collectionIterItem, isCollVal]

theorem collectionIterList_of_ordinary (l : List PyVal)
    (h : ∀ v ∈ l, isCollVal v = false) : collectionIterList l = l := by
  induction l with
  | nil => rfl
  | cons b rest ih =>
    rw [collectionIterList, collectionIterItem_of_not_coll b (h b (List.mem_cons_self _ _)),
      ih (fun v hv => h v (List.mem_cons_of_mem _ hv))]
    rfl

/-- The classification test collect applies before keeping a block for
the resulting JSON: it produced no variable definition and no output
(collections.py line 87, "if not var and not output"). -/
def keptByCollect (b : PyVal) : Bool :=
  (get_variables_from_block b).isEmpty && (get_outputs_from_block b).isEmpty

theorem ordinaryBlock_kept (b : PyVal) (h : ordinaryBlock b = true) :
    keptByCollect b = true := by
  simp only [ordinaryBlock, Bool.and_eq_true] at h
  simp [keptByCollect, h.1.2, h.2]

theorem collectionIterList_no_coll : ∀ (l : List PyVal),
    ∀ v ∈ collectionIterList l, isCollVal v = false
  | [] => by
    intro v hv
    rw [collectionIterList] at hv
    exact absurd hv (List.not_mem_nil v)
  | b :: rest => by
    intro v hv
    rw [collectionIterList] at hv
    rcases List.mem_append.mp hv with h1 | h2
    · cases b with
      | coll bs outs =>
        rw [collectionIterItem] at h1
        exact collectionIterList_no_coll bs v h1
      | str s =>
        rw [collectionIterItem_of_not_coll (PyVal.str s) rfl] at h1
        rcases List.mem_singleton.mp h1 with rfl
        rfl
      | interp s =>
        rw [collectionIterItem_of_not_coll (PyVal.interp s) rfl] at h1
        rcases List.mem_singleton.mp h1 with rfl
        rfl
      | obj d =>
        rw [collectionIterItem_of_not_coll (PyVal.obj d) rfl] at h1
        rcases List.mem_singleton.mp h1 with rfl
        rfl
      | arr items =>
        rw [collectionIterItem_of_not_coll (PyVal.arr items) rfl] at h1
        rcases List.mem_singleton.mp h1 with rfl
        rfl
      | blk p bd =>
        rw [collectionIterItem_of_not_coll (PyVal.blk p bd) rfl] at h1
        rcases List.mem_singleton.mp h1 with rfl
        rfl
      | pynone =>
        rw [collectionIterItem_of_not_coll (PyVal.pynone) rfl] at h1
        rcases List.mem_singleton.mp h1 with rfl
        rfl
    · exact collectionIterList_no_coll rest v h2
termination_by l => sizeOf l

theorem processBlock_blocks (acc : CollectAcc) (b : PyVal) :
    (processBlock acc b).blocks
      = acc.blocks ++ (if keptByCollect b then [b] else []) := by
  unfold processBlock keptByCollect
  dsimp only
  split
  next => rfl
  next => simp

theorem foldl_processBlock_blocks (l : List PyVal) (acc : CollectAcc) :
    (l.foldl processBlock acc).blocks = acc.blocks ++ l.filter keptByCollect := by
  induction l generalizing acc with
  | nil => simp
  | cons y rest ih =>
    rw [List.foldl_cons, ih (processBlock acc y), processBlock_blocks, List.filter_cons]
    by_cases hk : keptByCollect y = true
    · rw [if_pos hk, if_pos hk]
      simp
    · rw [if_neg hk, if_neg hk]
      simp

/-- One unfolding of the collectDrain loop. -/
theorem collectDrain_step (fuel : Nat) (g : Gen) (prev : PyVal) (acc : CollectAcc) :
    collectDrain (fuel + 1) g prev acc =
      match g.send prev with
      | none => some { acc with sentTrace := acc.sentTrace ++ [prev] }
      | some (y, g') =>
        match unwrap_yielded y with
        | none => none
        | some blocks =>
          collectDrain fuel g' y
            (blocks.foldl processBlock
              { acc with
                  sentTrace := acc.sentTrace ++ [prev]
                  yieldTrace := acc.yieldTrace ++ [y] }) := rfl

theorem collectDrain_kept (fuel : Nat) :
    ∀ (g : Gen) (prev : PyVal) (acc acc' : CollectAcc),
      collectDrain fuel g prev acc = some acc' →
      (∀ b ∈ acc.blocks, keptByCollect b = true) →
      ∀ b ∈ acc'.blocks, keptByCollect b = true := by
  induction fuel with
  | zero => intro g prev acc acc' h; exact absurd h (by simp [collectDrain])
  | succ fuel ih =>
    intro g prev acc acc' h hinv
    rw [collectDrain_step] at h
    cases hsend : g.send prev with
    | none =>
      rw [hsend] at h
      cases h
      exact hinv
    | some yg =>
      obtain ⟨y, g'⟩ := yg
      rw [hsend] at h
      dsimp only at h
      cases hun : unwrap_yielded y with
      | none => rw [hun] at h; cases h
      | some blocks =>
        rw [hun] at h
        refine ih g' y _ acc' h ?_
        intro b hb
        rw [foldl_processBlock_blocks] at hb
        rcases List.mem_append.mp hb with h1 | h2
        · exact hinv b h1
        · exact (List.mem_filter.mp h2).2

/-- unwrap_yielded applied to each of a producer's yields in turn. -/
def unwrapAll : List PyVal → Option (List (List PyVal))
  | [] => some []
  | y :: rest =>
    match unwrap_yielded y, unwrapAll rest with
    | some us, some uss => some (us :: uss)
    | _, _ => none

theorem collectDrain_genOfList_filter (ys : List PyVal) :
    ∀ (uss : List (List PyVal)), unwrapAll ys = some uss →
    ∀ (acc : CollectAcc) (prev : PyVal),
    ∃ acc', collectDrain (ys.length + 1) (genOfList ys) prev acc = some acc' ∧
      acc'.blocks = acc.blocks ++ uss.flatten.filter keptByCollect := by
  induction ys with
  | nil =>
    intro uss h1 acc prev
    cases h1
    refine ⟨{ acc with sentTrace := acc.sentTrace ++ [prev] }, ?_, ?_⟩
    · simp [collectDrain, genOfList, Gen.send]
    · simp
  | cons y rest ih =>
    intro uss h1 acc prev
    unfold unwrapAll at h1
    cases hy : unwrap_yielded y with
    | none => rw [hy] at h1; cases h1
    | some us =>
      rw [hy] at h1
      cases hrest : unwrapAll rest with
      | none => rw [hrest] at h1; cases h1
      | some uss' =>
        rw [hrest] at h1
        dsimp only at h1
        cases h1
        obtain ⟨acc', hdrain, hblocks⟩ := ih uss' hrest
          (us.foldl processBlock
            { acc with
                sentTrace := acc.sentTrace ++ [prev]
                yieldTrace := acc.yieldTrace ++ [y] }) y
        refine ⟨acc', ?_, ?_⟩
        · have hlen : (y :: rest).length + 1 = rest.length + 1 + 1 := rfl
          rw [hlen, collectDrain_step]
          have hsend : (genOfList (y :: rest)).send prev = some (y, genOfList rest) := rfl
          rw [hsend]
          dsimp only
          rw [hy]
          exact hdrain
        · rw [hblocks, foldl_processBlock_blocks]
          simp [List.filter_append, List.append_assoc]

/-- C4. Iterating a Collection built by collect yields only ordinary
blocks: (1) for every producer, every fuel bound and every keyword
seeding, every block a collect-built Collection records passed the
classification filter — it yielded no variable definition and no
output, so no variable-classified and no output-classified block is
ever among the recorded blocks; (2) iterating any Collection never
yields a Collection object, recursively flattening nested Collections
instead; (3) a producer that yields a variable block, Collection A, an
output block, Collection B, then a plain Block — A's and B's items
being ordinary — builds a Collection that iterates to exactly A's
blocks (in A's internal order), then B's, then the Block's flattened
mapping, in emission order, with the variable and output blocks
filtered out and every iterated item ordinary. -/
theorem collection_iteration_flattening :
    (∀ (fuel : Nat) (g : Gen) (kwargs : List (Str × PyVal)) (blocks : List PyVal)
        (outs : List (Str × PyVal)),
      collect g kwargs fuel = some (PyVal.coll blocks outs) →
      ∀ b ∈ blocks, keptByCollect b = true) ∧
    (∀ (l : List PyVal), ∀ v ∈ collectionIterList l, isCollVal v = false) ∧
    (∀ (vfields ofields : List (Str × PyVal)) (Ab Bb : List PyVal)
        (Ao Bo : List (Str × PyVal)) (p : Str) (body : List (Str × PyVal))
        (kwargs : List (Str × PyVal)),
      keptByCollect (PyVal.obj vfields) = false →
      keptByCollect (PyVal.obj ofields) = false →
      (∀ v ∈ collectionIterList Ab, ordinaryBlock v = true) →
      (∀ v ∈ collectionIterList Bb, ordinaryBlock v = true) →
      ordinaryBlock (PyVal.obj (Block.iter p body)) = true →
      ∃ outs,
        collect (genOfList [PyVal.obj vfields, PyVal.coll Ab Ao, PyVal.obj ofields,
            PyVal.coll Bb Bo, PyVal.blk p body]) kwargs 6
          = some (PyVal.coll (collectionIterList Ab ++ collectionIterList Bb
              ++ [PyVal.obj (Block.iter p body)]) outs) ∧
        collectionIterList (collectionIterList Ab ++ collectionIterList Bb
            ++ [PyVal.obj (Block.iter p body)])
          = collectionIterList Ab ++ collectionIterList Bb
              ++ [PyVal.obj (Block.iter p body)] ∧
        ∀ v ∈ collectionIterList Ab ++ collectionIterList Bb
            ++ [PyVal.obj (Block.iter p body)], ordinaryBlock v = true) := by
  refine ⟨?_, collectionIterList_no_coll, ?_⟩
  · intro fuel g kwargs blocks outs h
    unfold collect at h
    cases hd : collectDrain fuel g PyVal.pynone (initCollectAcc kwargs) with
    | none => rw [hd] at h; cases h
    | some acc' =>
      rw [hd] at h
      dsimp only at h
      have h2 := Option.some.inj h
      injection h2 with hb ho
      subst hb
      exact collectDrain_kept fuel g PyVal.pynone (initCollectAcc kwargs) acc' hd
        (fun b hb' => absurd hb' (List.not_mem_nil b))
  · intro vfields ofields Ab Bb Ao Bo p body kwargs hv ho hA hB hp
    have hall : ∀ v ∈ collectionIterList Ab ++ collectionIterList Bb
        ++ [PyVal.obj (Block.iter p body)], ordinaryBlock v = true := by
      intro v hv'
      rcases List.mem_append.mp hv' with hv1 | hv2
      · rcases List.mem_append.mp hv1 with hvA | hvB
        · exact hA v hvA
        · exact hB v hvB
      · rcases List.mem_singleton.mp hv2 with rfl
        exact hp
    have hfA : (collectionIterList Ab).filter keptByCollect = collectionIterList Ab :=
      List.filter_eq_self.mpr (fun v hv' => ordinaryBlock_kept v (hA v hv'))
    have hfB : (collectionIterList Bb).filter keptByCollect = collectionIterList Bb :=
      List.filter_eq_self.mpr (fun v hv' => ordinaryBlock_kept v (hB v hv'))
    have hpk : keptByCollect (PyVal.obj (Block.iter p body)) = true :=
      ordinaryBlock_kept _ hp
    have huss : unwrapAll [PyVal.obj vfields, PyVal.coll Ab Ao, PyVal.obj ofields,
        PyVal.coll Bb Bo, PyVal.blk p body]
      = some [[PyVal.obj vfields], collectionIterList Ab, [PyVal.obj ofields],
              collectionIterList Bb, [PyVal.obj (Block.iter p body)]] := rfl
    obtain ⟨acc', hdrain, hblocks⟩ :=
      collectDrain_genOfList_filter
        [PyVal.obj vfields, PyVal.coll Ab Ao, PyVal.obj ofields,
         PyVal.coll Bb Bo, PyVal.blk p body] _ huss
        (initCollectAcc kwargs) PyVal.pynone
    have hlen : ([PyVal.obj vfields, PyVal.coll Ab Ao, PyVal.obj ofields,
        PyVal.coll Bb Bo, PyVal.blk p body]).length + 1 = 6 := rfl
    rw [hlen] at hdrain
    have hbl : acc'.blocks = collectionIterList Ab ++ collectionIterList Bb
        ++ [PyVal.obj (Block.iter p body)] := by
      rw [hblocks]
      simp [initCollectAcc, List.filter_append, List.filter_cons, hv, ho,
        hfA, hfB, hpk, List.append_assoc]
    refine ⟨acc'.outputs, ?_, ?_, hall⟩
    · unfold collect
      rw [hdrain]
      dsimp only
      rw [hbl]
    · refine collectionIterList_of_ordinary _ (fun v hv' => ?_)
      have h := hall v hv'
      simp only [ordinaryBlock, Bool.and_eq_true, Bool.not_eq_true'] at h
      exact h.1.1

/-- A concrete ordinary resource-block mapping for the C4 witness. -/
def wC4Block : PyVal := PyVal.obj [(("resource").toList, PyVal.obj [])]

/-- A concrete variable-classified block body for the C4 witness:
\x7bvariable: \x7bn: \x7b\x7d\x7d\x7d. -/
def wC4VarFields : List (Str × PyVal) :=
  [(("variable").toList, PyVal.obj [(("n").toList, PyVal.obj [])])]

/-- A concrete output-classified block body for the C4 witness:
\x7boutput: \x7bn: \x7bvalue: "x"\x7d\x7d\x7d. -/
def wC4OutFields : List (Str × PyVal) :=
  [(("output").toList,
    PyVal.obj [(("n").toList, PyVal.obj [(("value").toList, PyVal.str ("x").toList)])])]

/-- Witness for collection_iteration_flattening: a producer yielding a
variable block then a resource block records only the resource block
and it passes the classification test; iterating a concrete nested
Collection yields no Collection object; and the five-yield scenario
with a variable block and an output block interspersed keeps exactly
A's block then the plain Block's mapping. -/
theorem collection_iteration_flattening_witness :
    (collect (genOfList [PyVal.obj wC4VarFields, wC4Block]) [] 3
        = some (PyVal.coll [wC4Block] []) ∧
      ∀ b ∈ [wC4Block], keptByCollect b = true) ∧
    (∀ v ∈ collectionIterList [PyVal.coll [wC4Block] []], isCollVal v = false) ∧
    (keptByCollect (PyVal.obj wC4VarFields) = false ∧
      keptByCollect (PyVal.obj wC4OutFields) = false ∧
      (∀ v ∈ collectionIterList [wC4Block], ordinaryBlock v = true) ∧
      ordinaryBlock (PyVal.obj (Block.iter ("resource.r.c").toList [])) = true ∧
      ∃ outs,
        collect (genOfList [PyVal.obj wC4VarFields, PyVal.coll [wC4Block] [],
            PyVal.obj wC4OutFields, PyVal.coll [] [],
            PyVal.blk ("resource.r.c").toList []]) [] 6
          = some (PyVal.coll (collectionIterList [wC4Block] ++ collectionIterList []
              ++ [PyVal.obj (Block.iter ("resource.r.c").toList [])]) outs) ∧
        collectionIterList (collectionIterList [wC4Block] ++ collectionIterList []
            ++ [PyVal.obj (Block.iter ("resource.r.c").toList [])])
          = collectionIterList [wC4Block] ++ collectionIterList []
              ++ [PyVal.obj (Block.iter ("resource.r.c").toList [])] ∧
        ∀ v ∈ collectionIterList [wC4Block] ++ collectionIterList []
            ++ [PyVal.obj (Block.iter ("resource.r.c").toList [])],
          ordinaryBlock v = true) := by
  refine ⟨⟨rfl, ?_⟩, ?_, rfl, rfl, ?_, rfl, ?_⟩
  · exact collection_iteration_flattening.1 3
      (genOfList [PyVal.obj wC4VarFields, wC4Block]) [] [wC4Block] [] rfl
  · exact collection_iteration_flattening.2.1 [PyVal.coll [wC4Block] []]
  · intro v hv
    rcases List.mem_singleton.mp hv with rfl
    rfl
  · exact collection_iteration_flattening.2.2 wC4VarFields wC4OutFields
      [wC4Block] [] [] [] ("resource.r.c").toList [] [] rfl rfl
      (fun v hv => by rcases List.mem_singleton.mp hv with rfl; rfl)
      (fun v hv => absurd hv (List.not_mem_nil v)) rfl

/-- C1, counterexample. Accessing an attribute on a Block with path
provider.aws and body {alias: "east"} returns the plain Python string
"aws.east", whose textual form is "aws.east" and not the
interpolation-wrapped "$\x7baws.east\x7d" the claim requires. -/
theorem provider_alias_attr_counterexample :
    Block.getattr ("provider.aws").toList
        [(("alias").toList, PyVal.str ("east").toList)] ("anything").toList
      = some (.pystr ("aws.east").toList) ∧
    Block.attrText (.pystr ("aws.east").toList) = ("aws.east").toList ∧
    Block.attrText (.pystr ("aws.east").toList) ≠ ("$\x7baws.east\x7d").toList := by
  refine ⟨rfl, rfl, ?_⟩
  decide

/-- C1, amended. Accessing any attribute on a Block with path
provider.aws and body {alias: "east"} returns the plain string
"aws.east" (type.alias), not an interpolation-wrapped Reference
Expression; with no alias field in the body it returns the plain string
"aws" (the type name alone); in neither case is the requested attribute
name appended. -/
theorem provider_alias_attr_plain_string (name : Str) :
    Block.getattr ("provider.aws").toList
        [(("alias").toList, PyVal.str ("east").toList)] name
      = some (.pystr ("aws.east").toList) ∧
    Block.getattr ("provider.aws").toList [] name
      = some (.pystr ("aws").toList) := by
  exact ⟨rfl, rfl⟩

/-- C2, counterexample. A sequence containing a Block is iterated with
its items yielded directly: unwrap_yielded on [Block("a", {})] yields
the Block object itself, which is not a mapping, even though unwrapping
the same Block directly would yield its flattened mapping — so items of
a sequence are not recursively unwrapped as the claim states. -/
theorem unwrap_yielded_counterexample :
    unwrap_yielded (.arr [.blk ("a").toList []]) = some [.blk ("a").toList []] ∧
    isMapping (.blk ("a").toList []) = false ∧
    unwrap_yielded (.blk ("a").toList []) = some [.obj [(("a").toList, .obj [])]] :=
  ⟨rfl, rfl, rfl⟩

/-- C2, amended. unwrap_yielded turns an already-a-Block value into
exactly one flattened mapping and passes a plain mapping through
unchanged; any other value is iterated with each of its items yielded
directly, without recursive unwrapping — a nested Collection thus
contributes its recorded items in order through the Collection's own
recursive flattening, while items of a plain sequence are emitted
exactly as they are. -/
theorem unwrap_yielded_behavior :
    (∀ p b, unwrap_yielded (.blk p b) = some [PyVal.obj (Block.iter p b)]) ∧
    (∀ d, unwrap_yielded (.obj d) = some [PyVal.obj d]) ∧
    (∀ items, unwrap_yielded (.arr items) = some items) ∧
    (∀ bs outs, unwrap_yielded (.coll bs outs) = some (collectionIterList bs)) :=
  ⟨fun _ _ => rfl, fun _ => rfl, fun _ => rfl, fun _ _ => rfl⟩

/-- C5. Accessing attribute arn on a Block with path
resource.aws_iam_user.peanut produces an Interpolated whose canonical
textual form is "$\x7baws_iam_user.peanut.arn\x7d": the leading resource
segment is dropped, the attribute appended, and the result wrapped in
the interpolation syntax; and that Interpolated compares equal to the
plain string of the same textual form. -/
theorem resource_reference_canonicalization :
    Block.getattr ("resource.aws_iam_user.peanut").toList [] ("arn").toList
      = some (.interpolated ("aws_iam_user.peanut.arn").toList) ∧
    Block.attrText (.interpolated ("aws_iam_user.peanut.arn").toList)
      = ("$\x7baws_iam_user.peanut.arn\x7d").toList ∧
    interpEqStr ("aws_iam_user.peanut.arn").toList
      ("$\x7baws_iam_user.peanut.arn\x7d").toList = true :=
  ⟨rfl, rfl, by decide⟩

/-- C9. Collection attribute access returns the recorded output value
when the name was recorded during the producer's run, and otherwise
raises AttributeError("output not defined: ..."), never silently
succeeding with a default. -/
theorem collection_output_access :
    (∀ outs name v, pyLookup outs name = some v →
      Collection.getattr outs name = .ok v) ∧
    (∀ outs name, pyLookup outs name = none →
      Collection.getattr outs name
        = .error (("output not defined: ").toList ++ name)) := by
  constructor
  · intro outs name v h
    simp [Collection.getattr, h]
  · intro outs name h
    simp [Collection.getattr, h]

/-- Witness for collection_output_access at a concrete outputs mapping:
a recorded name is returned and an unrecorded one errors. -/
theorem collection_output_access_witness :
    Collection.getattr [(("name").toList, PyVal.str ("x").toList)] ("name").toList
      = .ok (PyVal.str ("x").toList) ∧
    Collection.getattr [(("name").toList, PyVal.str ("x").toList)] ("nope").toList
      = .error (("output not defined: ").toList ++ ("nope").toList) :=
  ⟨collection_output_access.1 [(("name").toList, PyVal.str ("x").toList)]
      ("name").toList (PyVal.str ("x").toList) rfl,
   collection_output_access.2 [(("name").toList, PyVal.str ("x").toList)]
      ("nope").toList rfl⟩

end Pretf
